import Mathlib

/-!
Shallow embedding of `skactiveml/pool/_probal.py` (scikit-activeml) and
verification of the specification claims about it.

Modelling conventions:
* numpy float arrays are idealised as lists / matrices of rationals (`ℚ`);
  integer numpy arrays become lists of `ℤ`.
* `scipy.special.gammaln`-based `euler_beta` is a transcendental real
  function; every theorem about `_cost_reduction` is parametric in an
  arbitrary function `eb : List ℚ → ℚ` standing for `euler_beta`, because
  the claims relate two expressions built from the *same* beta function.
* Python dynamic values that matter to a claim (tuples vs ints in `==`,
  `len(None)`, `np.nan` cast to `int`) are modelled explicitly.
-/

namespace Probal

/-! ### Small numpy helpers -/

/-- First index of the minimum of a list (numpy `argmin` tie-break:
first occurrence).  Auxiliary recursion carrying current minimum,
next index and best index so far. -/
def argminAux : List ℚ → ℚ → ℕ → ℕ → ℕ
  | [], _, _, best => best
  | x :: xs, cur, i, best =>
      if x < cur then argminAux xs x (i + 1) i else argminAux xs cur (i + 1) best

/-- numpy `argmin` on a 1-d array (first index attaining the minimum). -/
def npArgmin : List ℚ → ℕ
  | [] => 0
  | x :: xs => argminAux xs x 1 0

/-- numpy `max` of a 1-d nonempty array (`np.max(row)`); 0 on the empty list
(numpy would raise there; all uses are on nonempty rows). -/
def npMaxRow : List ℚ → ℚ
  | [] => 0
  | x :: xs => xs.foldl max x

/-- Dot product of two rational vectors (`a @ b`). -/
def dotQ (a b : List ℚ) : ℚ := (List.zipWith (· * ·) a b).sum

/-- scipy.special.factorial on integers: `n!` for `n ≥ 0` and `0` for
negative arguments (scipy returns 0 there). -/
def spFactorial (z : ℤ) : ℚ := if z < 0 then 0 else (Nat.factorial z.toNat : ℚ)

/-- Source `multinomial(a) = factorial(sum a) / prod(factorial(a))`
for one row `a` (the source maps this over the rows of an array). -/
def multinomial (l : List ℤ) : ℚ := spFactorial l.sum / (l.map spFactorial).prod

/-- Identity-based cost matrix `1 - np.eye(n)` used for the `error` metric
and as the default cost matrix of `_cost_reduction`. -/
def oneMinusEye (n : ℕ) : List (List ℚ) :=
  (List.range n).map fun i => (List.range n).map fun j => if i = j then 0 else 1

/-! ### `_gen_l_vec_list` (lines 793-827) -/

/-- One pass of the inner loop of `_gen_l_vec_list`: extend every vector
`v` in the accumulator by every `newLabel ∈ {0,…,m}` satisfying
`newLabel - (m - sum v) <= 1e-10`.  All quantities are integers, so the
`1e-10` tolerance is exactly `  ≤ 0`. -/
def lVecStep (m : ℕ) (acc : List (List ℤ)) : List (List ℤ) :=
  acc.flatMap fun v =>
    (((List.range (m + 1)).map fun (x : ℕ) => (x : ℤ)).filter
        fun x => decide (x - ((m : ℤ) - v.sum) ≤ 0)).map
      fun x => v ++ [x]

/-- The accumulator of `_gen_l_vec_list` after `i` iterations of the
`for i in range(n_classes - 1)` loop, starting from `[[]]`. -/
def lVecBuild (m : ℕ) : ℕ → List (List ℤ)
  | 0 => [[]]
  | i + 1 => lVecStep m (lVecBuild m i)

/-- Source `_gen_l_vec_list(m, n_classes)`: run the loop `n_classes - 1`
times, then append the remainder `m - sum(labelVec)` to every vector. -/
def gen_l_vec_list (m n : ℕ) : List (List ℤ) :=
  (lVecBuild m (n - 1)).map fun v => v ++ [(m : ℤ) - v.sum]

/-- Reference enumeration (proof device for counting): all integer vectors
of length `i` with nonnegative entries summing to at most `m`, enumerated
by first coordinate.  Used only to count `lVecBuild`. -/
def sumVecs (m : ℕ) : ℕ → List (List ℤ)
  | 0 => [[]]
  | i + 1 =>
      (List.range (m + 1)).flatMap fun x =>
        (sumVecs (m - x) i).map fun v => (x : ℤ) :: v

/-! ### `_cost_reduction` (lines 719-790) -/

/-- Elementwise sum of a rational row and an integer row
(numpy broadcast `k + l`). -/
def addKL (k : List ℚ) (l : List ℤ) : List ℚ :=
  List.zipWith (fun a b => a + (b : ℚ)) k l

/-- Row vector times matrix, `v @ C` (matrix as list of rows; the number
of columns is read off the first row, as numpy does). -/
def rowMatMul (v : List ℚ) (C : List (List ℚ)) : List ℚ :=
  (List.range ((C.headD []).length)).map fun j =>
    (List.zipWith (fun vi row => vi * row.getD j 0) v C).sum

/-- Column `y` of a matrix: `C[:, y]`. -/
def matColumn (C : List (List ℚ)) (y : ℕ) : List ℚ := C.map fun row => row.getD y 0

/-- Row `j` of `np.eye(n)` as a rational vector. -/
def eyeRow (n j : ℕ) : List ℚ := (List.range n).map fun i => if i = j then 1 else 0

/-- Adding the prior: `k + prior * np.ones(n_classes)`. -/
def kPrior (k : List ℚ) (prior : ℚ) (n : ℕ) : List ℚ :=
  List.zipWith (· + ·) k (List.replicate n prior)

/-- Sum along axis 1 of one `comb` `[k', l, e_j]`:
the vector `k' + l + e_j`. -/
def combSum (kp : List ℚ) (l : List ℤ) (e : List ℚ) : List ℚ :=
  List.zipWith (· + ·) (addKL kp l) e

/-- Bayes decision for `k` and hypothetical labelling `l`:
`argmin over j of ((k + l) @ C)[j]` (line 757);
the prior-free `k` is used here, exactly as in the source. -/
def yHat (C : List (List ℚ)) (k : List ℚ) (l : List ℤ) : ℕ :=
  npArgmin (rowMatMul (addKL k l) C)

/-- Weight attached to one labelling vector `l` in the bincount of the
source (line 777-779): `factor_2[l] * (C[:, y_hat] @ factor_3[k, l])`,
i.e. `Multinomial(l) * Σ_j C[j][y_hat] * eb(k' + l + e_j)`. -/
def lWeight (eb : List ℚ → ℚ) (C : List (List ℚ)) (n : ℕ) (k kp : List ℚ)
    (l : List ℤ) : ℚ :=
  multinomial l *
    dotQ (matColumn C (yHat C k l))
      ((List.range n).map fun j => eb (combSum kp l (eyeRow n j)))

/-- The stacked labelling-vector list of the source (line 748-749):
`np.vstack([_gen_l_vec_list(m, n_classes) for m in range(m_max + 1)])`. -/
def lVecAll (mMax n : ℕ) : List (List ℤ) :=
  (List.range (mMax + 1)).flatMap fun m => gen_l_vec_list m n

/-- Expected classification cost of candidate `k` at depth `m` as the
source computes it: `factor_1[k] * np.bincount(m_list, weights)[m]`,
the bincount grouping the stacked vectors by their sum (lines 775-781). -/
def mSumCode (eb : List ℚ → ℚ) (C : List (List ℚ)) (prior : ℚ) (mMax n : ℕ)
    (k : List ℚ) (m : ℕ) : ℚ :=
  (1 / eb (kPrior k prior n)) *
    ((lVecAll mMax n).map fun l =>
        if l.sum = (m : ℤ) then lWeight eb C n k (kPrior k prior n) l else 0).sum

/-- Row of normalized gains of the source (lines 784-788):
`(m_sums[:, 0] - m_sums[:, 1:]) / np.arange(1, m_max + 1)`. -/
def gainsRow (eb : List ℚ → ℚ) (C : List (List ℚ)) (prior : ℚ) (mMax n : ℕ)
    (k : List ℚ) : List ℚ :=
  (List.range mMax).map fun i =>
    (mSumCode eb C prior mMax n k 0 - mSumCode eb C prior mMax n k (i + 1)) /
      ((i + 1 : ℕ) : ℚ)

/-- Source `_cost_reduction(k_vec_list, C, m_max, prior)` (lines 719-790),
parametric in the beta function `eb`.  `C = None` defaults to
`1 - np.eye(n_classes)`; `n_classes = len(k_vec_list[0])`.
Returns `np.max(gains, axis=1)`. -/
def cost_reduction (eb : List ℚ → ℚ) (kVecList : List (List ℚ))
    (C? : Option (List (List ℚ))) (mMax : ℕ) (prior : ℚ) : List ℚ :=
  let n := (kVecList.headD []).length
  let C := C?.getD (oneMinusEye n)
  kVecList.map fun k => npMaxRow (gainsRow eb C prior mMax n k)

/-- Written from the claim: the expected cost at depth `m` is the sum over
all label vectors `l` summing to `m` of
`(1/B(k+prior)) * Multinomial(l) * Σ_j C[:, y_hat][j] * B(k+prior+l+e_j)`
with `y_hat = argmin_j (k+l)·C[:, j]`.  The label vectors summing to `m`
are enumerated by `gen_l_vec_list m n` (proved complete and duplicate-free
for the claim about `_gen_l_vec_list`). -/
def claimExpectedCost (eb : List ℚ → ℚ) (C : List (List ℚ)) (prior : ℚ)
    (n : ℕ) (k : List ℚ) (m : ℕ) : ℚ :=
  ((gen_l_vec_list m n).map fun l =>
      (1 / eb (kPrior k prior n)) * multinomial l *
        dotQ (matColumn C (yHat C k l))
          ((List.range n).map fun j => eb (combSum (kPrior k prior n) l (eyeRow n j)))).sum

/-- Written from the claim: the candidate's utility is the maximum over
`m ∈ {1,…,m_max}` of `(cost at 0 - cost at m) / m`. -/
def claimUtility (eb : List ℚ → ℚ) (C : List (List ℚ)) (prior : ℚ)
    (n mMax : ℕ) (h : (Finset.Icc 1 mMax).Nonempty) (k : List ℚ) : ℚ :=
  (Finset.Icc 1 mMax).sup' h fun m =>
    (claimExpectedCost eb C prior n k 0 - claimExpectedCost eb C prior n k m) / (m : ℚ)

/-! ### The greedy branch of `XPAL.query` (lines 415-458) -/

/-- Result of `np.full([...], np.nan, dtype=int)` per entry: `np.nan`
cast to a 64-bit integer, which numpy turns into `INT64_MIN`. -/
def npNanInt : ℤ := -(2 ^ 63)

/-- Source `np.setdiff1d(np.arange(n), excl)` (line 420-421): the
candidate indices not occurring in `excl`. -/
def setdiffRange (n : ℕ) (excl : List ℤ) : List ℕ :=
  (List.range n).filter fun c => decide ((c : ℤ) ∉ excl)

/-- Source `_get_nonmyopic_cand_set` (lines 468-476) for
`neighbors='same'`: `np.tile(cand_idx, [M, 1]).T`, i.e. each candidate
index repeated `M` times. -/
def get_nonmyopic_cand_set_same (candIdx : List ℕ) (M : ℕ) : List (List ℤ) :=
  candIdx.map fun c => List.replicate M ((c : ℕ) : ℤ)

/-- The `unlabeled_cand_idx` computed at greedy step `_i` (line 420-421).
Because `best_indices` is re-created as all-`npNanInt` inside the loop
body at every step, this is the same full candidate list at every step. -/
def greedyEvaluatedCands (n bs : ℕ) (_i : ℕ) : List ℕ :=
  setdiffRange n (List.replicate bs npNanInt)

/-- The per-candidate index sets handed to `nonmyopic_gain` at greedy step
`i` (lines 422-429): the nonmyopic set of each unlabeled candidate with
`best_indices[:i]` prepended (`np.hstack`). -/
def greedyCandIdxSets (n bs M i : ℕ) : List (List ℤ) :=
  let best_indices : List ℤ := List.replicate bs npNanInt
  let unlabeled := setdiffRange n best_indices
  (get_nonmyopic_cand_set_same unlabeled M).map fun c => best_indices.take i ++ c

/-- The greedy selection loop of `XPAL.query` (lines 415-458), with the
utility computation and randomized arg-max abstracted into `pick`
(the position chosen among the unlabeled candidates at each step).
Mirroring the source, `utilities` and `best_indices` are (re-)initialised
*inside* the loop body, so the accumulator of the fold is discarded at
every step; `best_indices[i_greedy]` is assigned at the end of the body. -/
def xpal_query_greedy (n bs : ℕ) (pick : ℕ → ℕ) : List ℤ :=
  (List.range bs).foldl
    (fun _ i =>
      let best_indices : List ℤ := List.replicate bs npNanInt
      let unlabeled := setdiffRange n best_indices
      best_indices.set i ((unlabeled.getD (pick i) 0 : ℕ) : ℤ))
    (List.replicate bs npNanInt)

/-! ### The normalization loop of `nonmyopic_gain` (lines 524-578) -/

/-- Elementwise division of a utility row by
`np.arange(1, row_length + 1)` (the running lookahead depth). -/
def divideRowByDepth (row : List ℚ) : List ℚ :=
  List.zipWith (fun x d => x / ((d + 1 : ℕ) : ℚ)) row (List.range row.length)

/-- The utility matrix produced by `nonmyopic_gain` in `gain_mode =
'nonmyopic'`, with the inner probability-weighted performance-delta
accumulation abstracted as `raw i d` (value accumulated for the depth-d
prefix of candidate sequence `i`).  Faithful to the source:
row `i` is filled in iteration `i` of the outer loop, and the division by
`np.arange(1, M+1)` is applied to the *whole matrix* inside the outer
loop (lines 575-577).  The `np.empty` initialisation is modelled by
zeroes; every row is overwritten before it contributes to the result. -/
def nonmyopic_gain_utilities (raw : ℕ → ℕ → ℚ) (N M : ℕ) : List (List ℚ) :=
  (List.range N).foldl
    (fun tmp i => ((tmp.set i ((List.range M).map (raw i))).map divideRowByDepth))
    (List.replicate N (List.replicate M 0))

/-! ### `dependent_cand_prob` (lines 580-602) -/

/-- Source `dependent_cand_prob`, with the fitted estimator abstracted:
`est pfxIdx pfxLab c y` is the probability the estimator, refit on the
labeled data plus the candidates `pfxIdx` hypothetically labeled
`pfxLab`, assigns to class `y` for candidate `c` (lines 586-601:
`fit` on `X ++ X_c[cand_idx[0:i]]` then `predict_proba` for
`cand_idx[i]`, class `y_sim[i]`). -/
def dependent_cand_prob (est : List ℕ → List ℕ → ℕ → ℕ → ℚ)
    (candIdx : List ℕ) (ySimList : List (List ℕ)) : List ℚ :=
  ySimList.map fun ySim =>
    (List.range ySim.length).foldl
      (fun acc i =>
        acc * est (candIdx.take i) (ySim.take i) (candIdx.getD i 0) (ySim.getD i 0))
      1

/-! ### `_transform_metric` (lines 611-656) and its call site (lines 318-320) -/

/-- A numpy array as the dynamic Python value passed around by `XPAL`:
either a 1-d cost vector or a 2-d cost matrix. -/
inductive NpArr
  | vec : List ℚ → NpArr
  | mat : List (List ℚ) → NpArr
deriving DecidableEq

/-- numpy `.shape` of an array. -/
def npArrShape : NpArr → List ℤ
  | NpArr.vec v => [(v.length : ℤ)]
  | NpArr.mat m => [(m.length : ℤ), ((m.headD []).length : ℤ)]

/-- numpy `.reshape(-1, 1)` flattening used by the cost-vector branch. -/
def npFlatten : NpArr → List ℚ
  | NpArr.vec v => v
  | NpArr.mat m => m.flatten

/-- Python values compared by `==` in the shape check: a tuple is never
equal to an int in Python (`arr.shape != (n_classes)` compares the shape
tuple against the bare int `n_classes`). -/
inductive PyObj
  | int : ℤ → PyObj
  | tuple : List ℤ → PyObj
deriving DecidableEq

/-- Python `==` on the two kinds of values above: structural equality
within a kind, `False` across kinds. -/
def pyEq : PyObj → PyObj → Bool
  | PyObj.int a, PyObj.int b => decide (a = b)
  | PyObj.tuple a, PyObj.tuple b => decide (a = b)
  | _, _ => false

/-- Python exceptions raised by the embedded code. -/
inductive PyErr
  | valueError
  | typeError
  | notImplementedError
deriving DecidableEq

/-- The `perf_func` slot of `_transform_metric`: `None`, one of the two
module-level scoring functions, or the caller-supplied custom function
(kept opaque). -/
inductive PerfFuncVal
  | pyNone
  | macroAccuracyFunc
  | f1ScoreFunc
  | customFunc
deriving DecidableEq

/-- Modelled from the spec: the external validator `check_cost_matrix`
(imported from `skactiveml.utils`, not part of this repository's core
sources) — "caller-supplied matrix, validated square/non-negative". -/
def checkCostMatrixOk (a : NpArr) (n : ℕ) : Bool :=
  match a with
  | NpArr.mat m =>
      decide (m.length = n ∧ (∀ r ∈ m, r.length = n) ∧ ∀ r ∈ m, ∀ x ∈ r, 0 ≤ x)
  | NpArr.vec _ => false

/-- Cost matrix `cost_vector.reshape(-1, 1) @ np.ones([1, n])` followed by
`np.fill_diagonal(cost_matrix, 0)` (lines 622-624). -/
def outerOnesZeroDiag (v : List ℚ) (n : ℕ) : List (List ℚ) :=
  (List.range v.length).map fun i =>
    (List.range n).map fun j => if i = j then 0 else v.getD i 0

/-- Cost matrix `abs(row_matrix - row_matrix.T)` of the mean-abs-error
branch (lines 636-638). -/
def meanAbsErrMatrix (n : ℕ) : List (List ℚ) :=
  (List.range n).map fun i => (List.range n).map fun j => |(i : ℚ) - (j : ℚ)|

/-- Source `_transform_metric(metric, cost_matrix, cost_vector, perf_func,
n_classes)` (lines 611-656).  NOTE the parameter order: `cost_matrix`
is the second parameter and `cost_vector` the third, exactly as in the
`def` line of the source. -/
def transform_metric (metric : String) (cost_matrix : Option NpArr)
    (cost_vector : Option NpArr) (perf_func : PerfFuncVal) (n_classes : ℕ) :
    Except PyErr (String × Option (List (List ℚ)) × PerfFuncVal) :=
  if metric = "error" then
    Except.ok ("misclassification-loss", some (oneMinusEye n_classes), PerfFuncVal.pyNone)
  else if metric = "cost-vector" then
    match cost_vector with
    | none => Except.error PyErr.valueError
    | some cv =>
        if pyEq (PyObj.tuple (npArrShape cv)) (PyObj.int (n_classes : ℤ)) then
          Except.ok ("misclassification-loss",
            some (outerOnesZeroDiag (npFlatten cv) n_classes), PerfFuncVal.pyNone)
        else Except.error PyErr.valueError
  else if metric = "misclassification-loss" then
    match cost_matrix with
    | none => Except.error PyErr.valueError
    | some cm =>
        if checkCostMatrixOk cm n_classes then
          Except.ok ("misclassification-loss",
            some (match cm with | NpArr.mat m => m | NpArr.vec _ => []), PerfFuncVal.pyNone)
        else Except.error PyErr.valueError
  else if metric = "mean-abs-error" then
    Except.ok ("misclassification-loss", some (meanAbsErrMatrix n_classes), PerfFuncVal.pyNone)
  else if metric = "macro-accuracy" then
    Except.ok ("custom", none, PerfFuncVal.macroAccuracyFunc)
  else if metric = "f1-score" then
    Except.ok ("custom", none, PerfFuncVal.f1ScoreFunc)
  else if metric = "cohens-kappa" then
    Except.ok ("custom", none, perf_func)
  else Except.error PyErr.valueError

/-- The call in `XPAL.query` (lines 318-320):
`_transform_metric(self.metric, self.cost_vector, self.cost_matrix,
self.custom_perf_func, n_classes=n_classes)` — the *second positional
argument* is `self.cost_vector` (bound to parameter `cost_matrix`) and
the *third* is `self.cost_matrix` (bound to parameter `cost_vector`). -/
def queryTransformMetric (metric : String) (selfCostVector : Option NpArr)
    (selfCostMatrix : Option NpArr) (perf : PerfFuncVal) (n : ℕ) :
    Except PyErr (String × Option (List (List ℚ)) × PerfFuncVal) :=
  transform_metric metric selfCostVector selfCostMatrix perf n

/-! ### Control-flow trace of `XPAL.query` (lines 287-466) -/

/-- Events of one `XPAL.query` call, in execution order. -/
inductive QEvent
  | metricTransform
  | priorDerivation
  | kernelComputation
  | utilityEvaluation
  | clampWarning
deriving DecidableEq

/-- Errors aborting an `XPAL.query` call. -/
inductive QError
  | notImplemented
  | unknownBatchMode
deriving DecidableEq

/-- The sequence of work items `XPAL.query` executes, and the error that
aborts it (if any), as a function of the batch mode, the nonmyopic
lookahead, the requested batch size and the number of candidates.
Order from the source: `_transform_metric` (line 318),
`calculate_optimal_prior` (line 331), kernel matrices `sim_c_x` (357),
`sim_e_x`/`sim_e_c` (358-363), `sim_c_c` only when `batch_size > 1 or
nonmyopic_look_ahead > 1` (364-367); then the `batch_mode` dispatch
(378/415/461).  In `full` mode the `NotImplementedError` for
`nonmyopic_look_ahead > 1` is raised at line 380, *after* all of the
above; otherwise one `nonmyopic_gain` call (386); in `greedy` mode one
`nonmyopic_gain` call per step (430).  The commented-out
`self._validate_input` call (lines 325-326) means no clamping of
`batch_size` and no warning ever happens.  This definition is the shared
preamble executed before the `batch_mode` dispatch. -/
def xpalQueryPre (lookAhead batchSize : ℕ) : List QEvent :=
  [QEvent.metricTransform, QEvent.priorDerivation,
   QEvent.kernelComputation, QEvent.kernelComputation] ++
    (if 1 < batchSize ∨ 1 < lookAhead then [QEvent.kernelComputation] else [])

/-- Branching of `XPAL.query` after the shared preamble (see
`xpalQueryPre`). -/
def xpalQueryEvents (batchMode : String) (lookAhead batchSize : ℕ) :
    List QEvent × Option QError :=
  if batchMode = "full" then
    if 1 < lookAhead then (xpalQueryPre lookAhead batchSize, some QError.notImplemented)
    else (xpalQueryPre lookAhead batchSize ++ [QEvent.utilityEvaluation], none)
  else if batchMode = "greedy" then
    (xpalQueryPre lookAhead batchSize ++
      (List.range batchSize).map (fun _ => QEvent.utilityEvaluation), none)
  else (xpalQueryPre lookAhead batchSize, some QError.unknownBatchMode)

/-- The (dead) clamping logic of `XPAL._validate_input` (lines 268-276):
returns the effective batch size and whether a warning was emitted. -/
def validate_input_batch_size (nCand batchSize : ℕ) : ℕ × Bool :=
  if nCand < batchSize then (nCand, true) else (batchSize, false)

/-! ### `calculate_optimal_prior` (lines 707-716) -/

/-- numpy `np.linalg.inv` on an invertible rational matrix:
`det⁻¹ • adjugate` (equal to Mathlib's `C⁻¹` when `det ≠ 0`). -/
def npLinalgInv {n : ℕ} (C : Matrix (Fin n) (Fin n) ℚ) : Matrix (Fin n) (Fin n) ℚ :=
  (C.det)⁻¹ • C.adjugate

/-- Row vector `M = np.ones([1, n]) @ np.linalg.inv(C)` (line 712):
entry `j` is the `j`-th column sum of the inverse. -/
def invColSums {n : ℕ} (C : Matrix (Fin n) (Fin n) ℚ) : Fin n → ℚ :=
  fun j => ∑ i, npLinalgInv C i j

/-- Core of `calculate_optimal_prior` on a non-`None` matrix
(lines 711-716): `M[0] / np.sum(M)` when all entries of `M[0]` are
nonnegative, else the uniform vector. -/
def calculate_optimal_prior {n : ℕ} (C : Matrix (Fin n) (Fin n) ℚ) : Fin n → ℚ :=
  if ∀ j, 0 ≤ invColSums C j then
    fun j => invColSums C j / ∑ j', invColSums C j'
  else fun _ => 1 / (n : ℚ)

/-- Python `len`: `len(cost_matrix)` raises `TypeError` when the argument
is `None` (line 708 runs before the `None` check of line 709). -/
def pyLen : Option ((n : ℕ) × Matrix (Fin n) (Fin n) ℚ) → Except PyErr ℕ
  | none => Except.error PyErr.typeError
  | some p => Except.ok p.1

/-- Full `calculate_optimal_prior(cost_matrix=None)` including the
evaluation order of the source: `n_classes = len(cost_matrix)` first
(line 708), only then the `cost_matrix is None` test (line 709) guarding
the uniform-prior return (line 710). -/
def calculateOptimalPriorPy (costMatrix : Option ((n : ℕ) × Matrix (Fin n) (Fin n) ℚ)) :
    Except PyErr ((n : ℕ) × (Fin n → ℚ)) :=
  match pyLen costMatrix with
  | Except.error e => Except.error e
  | Except.ok nClasses =>
      match costMatrix with
      | none => Except.ok ⟨nClasses, fun _ => 1 / (nClasses : ℚ)⟩
      | some p => Except.ok ⟨p.1, calculate_optimal_prior p.2⟩

/-- Concrete beta function used to instantiate witnesses. -/
def ebOne : List ℚ → ℚ := fun _ => 1

/-! ## Helper lemmas -/

/-- Folding multiplication over `List.range` is the finite product. -/
theorem foldl_mul_range (f : ℕ → ℚ) (a : ℚ) (L : ℕ) :
    (List.range L).foldl (fun acc i => acc * f i) a = a * ∏ i ∈ Finset.range L, f i := by
  induction L generalizing a with
  | zero => simp
  | succ L ih =>
      rw [List.range_succ, List.foldl_append, ih, Finset.prod_range_succ]
      simp [mul_assoc]

/-! ## Claim theorems -/

/-- C5 (supporting theorem): the source `dependent_cand_prob` computes,
for every hypothetical labelling of the candidate subset, exactly the
chain-rule product whose `i`-th factor is the probability estimate for
the `i`-th instance after refitting on the training data augmented with
the first `i-1` instances of the subset hypothetically labeled.
(The claim's call site, however, never reaches this function: see the
results entry — `nonmyopic_gain` passes 10 positional arguments to this
9-parameter function, a `TypeError`.) -/
theorem dependent_cand_prob_chain_rule (est : List ℕ → List ℕ → ℕ → ℕ → ℚ)
    (candIdx : List ℕ) (ySimList : List (List ℕ)) :
    dependent_cand_prob est candIdx ySimList =
      ySimList.map fun ySim =>
        ∏ i ∈ Finset.range ySim.length,
          est (candIdx.take i) (ySim.take i) (candIdx.getD i 0) (ySim.getD i 0) := by
  unfold dependent_cand_prob
  refine List.map_congr_left fun ySim _ => ?_
  rw [foldl_mul_range]
  simp

/-- C3 (counterexample computation): with two candidate sequences and
lookahead depth 2, and raw accumulated value 1 everywhere, the code
returns `1/4` as the depth-2 utility of the first sequence — the whole
matrix is divided by the depth vector once per outer iteration — whereas
a single division by the depth would give `1/2`.  The first row is
divided twice, the second once. -/
theorem nonmyopic_gain_repeated_normalization :
    nonmyopic_gain_utilities (fun _ _ => 1) 2 2 = [[1, 1/4], [1, 1/2]] ∧
    ((nonmyopic_gain_utilities (fun _ _ => 1) 2 2).getD 0 []).getD 1 0 ≠ 1 / (2 : ℚ) := by
  constructor <;>
    norm_num [nonmyopic_gain_utilities, divideRowByDepth, List.range_succ,
      List.replicate, List.zipWith, List.set]

/-- C2 (counterexample computation): greedy mode with 3 candidates and
`batch_size = 2`, `neighbors='same'`, lookahead `M = 1`, and an arbitrary
concrete arg-max outcome (position 0 at every step).  Because
`best_indices` and `utilities` are re-initialised inside the loop body,
(a) the candidate set evaluated at step 1 is again all of
`{0, 1, 2}` — it does not exclude candidate 0 selected at step 0;
(b) the index sets handed to `nonmyopic_gain` at step 1 contain the
`np.nan`-as-int sentinel, not the step-0 selection; and
(c) the returned index vector is `[npNanInt, 0]`, whose first entry is
not a candidate index (it is negative), so the result does not consist
of `batch_size` pairwise-distinct candidate indices. -/
theorem greedy_reset_forgets_selection :
    xpal_query_greedy 3 2 (fun _ => 0) = [npNanInt, 0] ∧
    npNanInt < 0 ∧
    greedyEvaluatedCands 3 2 1 = [0, 1, 2] ∧
    greedyCandIdxSets 3 2 1 1 = [[npNanInt, 0], [npNanInt, 1], [npNanInt, 2]] := by
  decide

/-- C6 (counterexample computation): with `metric='cost-vector'`, for
*every* supplied cost vector `v` (of any length, in particular of length
`n_classes`) and every value of `self.cost_matrix`, the metric transform
invoked by `XPAL.query` raises `ValueError` instead of resolving the
outer-product cost matrix: the call site passes `self.cost_vector` into
the `cost_matrix` parameter slot and `self.cost_matrix` into the
`cost_vector` slot, and the shape test compares a tuple with an int. -/
theorem cost_vector_metric_always_fails (v : List ℚ) (cm : Option NpArr)
    (pf : PerfFuncVal) (n : ℕ) :
    queryTransformMetric "cost-vector" (some (NpArr.vec v)) cm pf n =
      Except.error PyErr.valueError := by
  cases cm with
  | none => rfl
  | some a => cases a <;> rfl

/-- C7 (counterexample): at `batch_mode='full'`,
`nonmyopic_look_ahead = 2`, `batch_size = 1`, the call does abort with
`NotImplementedError`, but numeric work (optimal-prior derivation and
kernel-matrix computation) has already been performed before the raise,
contradicting the claim that the failure precedes any numeric work. -/
theorem full_mode_error_after_numeric_work :
    (xpalQueryEvents "full" 2 1).2 = some QError.notImplemented ∧
    ¬ (∀ e ∈ (xpalQueryEvents "full" 2 1).1,
        e ≠ QEvent.priorDerivation ∧ e ≠ QEvent.kernelComputation ∧
          e ≠ QEvent.utilityEvaluation) := by
  decide

/-- C7 (amended): for every `nonmyopic_look_ahead ≥ 2` and every batch
size, `batch_mode='full'` aborts with `NotImplementedError`; no utility
evaluation is ever performed, but the prior derivation and the kernel
computations do run before the failure. -/
theorem full_mode_lookahead_error (la bs : ℕ) (h : 2 ≤ la) :
    (xpalQueryEvents "full" la bs).2 = some QError.notImplemented ∧
    QEvent.utilityEvaluation ∉ (xpalQueryEvents "full" la bs).1 ∧
    QEvent.priorDerivation ∈ (xpalQueryEvents "full" la bs).1 ∧
    QEvent.kernelComputation ∈ (xpalQueryEvents "full" la bs).1 := by
  have h1 : 1 < la := h
  unfold xpalQueryEvents xpalQueryPre
  rw [if_pos rfl, if_pos h1, if_pos (Or.inr h1)]
  decide

/-- C7 witness for `full_mode_lookahead_error`. -/
theorem full_mode_lookahead_error_witness :
    2 ≤ 2 ∧
    ((xpalQueryEvents "full" 2 1).2 = some QError.notImplemented ∧
      QEvent.utilityEvaluation ∉ (xpalQueryEvents "full" 2 1).1 ∧
      QEvent.priorDerivation ∈ (xpalQueryEvents "full" 2 1).1 ∧
      QEvent.kernelComputation ∈ (xpalQueryEvents "full" 2 1).1) :=
  ⟨by decide, full_mode_lookahead_error 2 1 (by decide)⟩

/-- C8 (counterexample computation): with 1 candidate and requested
`batch_size = 2` in greedy mode, the dead `_validate_input` logic *would*
clamp to 1 and warn, but the actual `query` performs 2 utility-evaluation
steps (no clamping), emits no warning, and the claimed clamping diagnostic
never surfaces. -/
theorem batch_size_clamp_is_dead_code :
    validate_input_batch_size 1 2 = (1, true) ∧
    (xpalQueryEvents "greedy" 1 2).1.count QEvent.utilityEvaluation = 2 ∧
    QEvent.clampWarning ∉ (xpalQueryEvents "greedy" 1 2).1 ∧
    (xpalQueryEvents "greedy" 1 2).2 = none := by
  decide

/-- C10: calling `calculate_optimal_prior` with `cost_matrix=None`
always raises `TypeError` — `len(cost_matrix)` on line 708 runs before
the `None` check on line 709 — so the uniform-prior branch for a missing
cost matrix is unreachable, and on every non-`None` matrix the function
returns the core computation. -/
theorem calculate_optimal_prior_none_raises :
    calculateOptimalPriorPy none = Except.error PyErr.typeError ∧
    ∀ p, calculateOptimalPriorPy (some p) =
        Except.ok ⟨p.1, calculate_optimal_prior p.2⟩ :=
  ⟨rfl, fun _ => rfl⟩

/-- C9: on a square invertible non-negative cost matrix, if every column
sum of the inverse is nonnegative then `calculate_optimal_prior` returns
a vector with all entries `≥ 0` summing to `1`; if some column sum is
negative it returns the uniform vector `[1/n, …, 1/n]`. -/
theorem calculate_optimal_prior_spec {n : ℕ} (C : Matrix (Fin n) (Fin n) ℚ)
    (hn : 0 < n) (hdet : C.det ≠ 0) (_hNN : ∀ i j, 0 ≤ C i j) :
    ((∀ j, 0 ≤ invColSums C j) →
      (∀ j, 0 ≤ calculate_optimal_prior C j) ∧
        ∑ j, calculate_optimal_prior C j = 1) ∧
    ((∃ j, invColSums C j < 0) →
      calculate_optimal_prior C = fun _ => 1 / (n : ℚ)) := by
  have hinv : npLinalgInv C = C⁻¹ := by
    rw [npLinalgInv, Matrix.inv_def, Ring.inverse_eq_inv']
  have hmul : C⁻¹ * C = 1 := Matrix.nonsing_inv_mul C (isUnit_iff_ne_zero.mpr hdet)
  constructor
  · intro h
    have hkey : ∑ j, invColSums C j * C j ⟨0, hn⟩ = 1 := by
      calc ∑ j, invColSums C j * C j ⟨0, hn⟩
          = ∑ j, ∑ i, npLinalgInv C i j * C j ⟨0, hn⟩ := by
            simp [invColSums, Finset.sum_mul]
        _ = ∑ i, ∑ j, npLinalgInv C i j * C j ⟨0, hn⟩ := Finset.sum_comm
        _ = ∑ i, (C⁻¹ * C) i ⟨0, hn⟩ := by
            simp [Matrix.mul_apply, hinv]
        _ = ∑ i, (1 : Matrix (Fin n) (Fin n) ℚ) i ⟨0, hn⟩ := by rw [hmul]
        _ = 1 := by simp [Matrix.one_apply]
    have hT : 0 < ∑ j', invColSums C j' := by
      rcases lt_or_eq_of_le (Finset.sum_nonneg fun j _ => h j) with hlt | heq
      · exact hlt
      · exfalso
        have hall := (Finset.sum_eq_zero_iff_of_nonneg fun j _ => h j).mp heq.symm
        have : (0 : ℚ) = 1 := by
          rw [← hkey]
          exact (Finset.sum_eq_zero fun j _ => by
            rw [hall j (Finset.mem_univ j), zero_mul]).symm
        norm_num at this
    unfold calculate_optimal_prior
    rw [if_pos h]
    refine ⟨fun j => div_nonneg (h j) (le_of_lt hT), ?_⟩
    rw [← Finset.sum_div, div_self (ne_of_gt hT)]
  · rintro ⟨j, hj⟩
    unfold calculate_optimal_prior
    exact if_neg fun hall => (not_le.mpr hj) (hall j)

/-- C9 witness for `calculate_optimal_prior_spec`, exercising both
branches: the error cost matrix `[[0,1],[1,0]]` (inverse column sums all
nonnegative, result sums to 1) and the nonnegative invertible matrix
`[[2,3],[1,2]]` (inverse `[[2,-3],[-1,2]]` has column sum `-1 < 0`,
result uniform). -/
theorem calculate_optimal_prior_spec_witness :
    ((0 < 2 ∧ (!![(0:ℚ),1;1,0]).det ≠ 0 ∧ (∀ i j, 0 ≤ !![(0:ℚ),1;1,0] i j) ∧
        (∀ j, 0 ≤ invColSums !![(0:ℚ),1;1,0] j)) ∧
      (∀ j, 0 ≤ calculate_optimal_prior !![(0:ℚ),1;1,0] j) ∧
        ∑ j, calculate_optimal_prior !![(0:ℚ),1;1,0] j = 1) ∧
    (((!![(2:ℚ),3;1,2]).det ≠ 0 ∧ (∀ i j, 0 ≤ !![(2:ℚ),3;1,2] i j) ∧
        (∃ j, invColSums !![(2:ℚ),3;1,2] j < 0)) ∧
      calculate_optimal_prior !![(2:ℚ),3;1,2] = fun _ => 1 / (2 : ℚ)) := by
  have hdet1 : (!![(0:ℚ),1;1,0]).det ≠ 0 := by
    rw [Matrix.det_fin_two_of]; norm_num
  have hNN1 : ∀ i j, 0 ≤ !![(0:ℚ),1;1,0] i j := by
    intro i j; fin_cases i <;> fin_cases j <;> norm_num
  have hpos1 : ∀ j, 0 ≤ invColSums !![(0:ℚ),1;1,0] j := by
    intro j
    fin_cases j <;>
      norm_num [invColSums, npLinalgInv, Fin.sum_univ_two, Matrix.smul_apply,
        Matrix.det_fin_two_of, Matrix.adjugate_fin_two_of]
  have hdet2 : (!![(2:ℚ),3;1,2]).det ≠ 0 := by
    rw [Matrix.det_fin_two_of]; norm_num
  have hNN2 : ∀ i j, 0 ≤ !![(2:ℚ),3;1,2] i j := by
    intro i j; fin_cases i <;> fin_cases j <;> norm_num
  have hneg2 : invColSums !![(2:ℚ),3;1,2] 1 < 0 := by
    norm_num [invColSums, npLinalgInv, Fin.sum_univ_two, Matrix.smul_apply,
      Matrix.det_fin_two_of, Matrix.adjugate_fin_two_of]
  exact ⟨⟨⟨by norm_num, hdet1, hNN1, hpos1⟩,
      (calculate_optimal_prior_spec !![(0:ℚ),1;1,0] (by norm_num) hdet1 hNN1).1 hpos1⟩,
    ⟨⟨hdet2, hNN2, ⟨1, hneg2⟩⟩,
      (calculate_optimal_prior_spec !![(2:ℚ),3;1,2] (by norm_num) hdet2 hNN2).2 ⟨1, hneg2⟩⟩⟩

/-! ## `_gen_l_vec_list` lemmas (C4) -/

/-- Membership in the filtered label range of `lVecStep`. -/
theorem mem_lVecStep_filter {m : ℕ} {w : List ℤ} {x : ℤ} :
    x ∈ (((List.range (m + 1)).map fun (t : ℕ) => (t : ℤ)).filter
        fun x => decide (x - ((m : ℤ) - w.sum) ≤ 0)) ↔
      0 ≤ x ∧ x ≤ (m : ℤ) ∧ x + w.sum ≤ (m : ℤ) := by
  simp only [List.mem_filter, List.mem_map, List.mem_range, decide_eq_true_eq]
  constructor
  · rintro ⟨⟨t, ht, hx⟩, h2⟩
    omega
  · rintro ⟨hx, hsum⟩
    refine ⟨⟨x.toNat, ?_, ?_⟩, ?_⟩ <;> omega

/-- Characterization of the accumulator of `_gen_l_vec_list`: after `i`
loop iterations it holds exactly the integer vectors of length `i` with
nonnegative entries and sum at most `m`. -/
theorem mem_lVecBuild (m : ℕ) :
    ∀ (i : ℕ) (v : List ℤ),
      v ∈ lVecBuild m i ↔ v.length = i ∧ (∀ x ∈ v, 0 ≤ x) ∧ v.sum ≤ (m : ℤ) := by
  intro i
  induction i with
  | zero =>
      intro v
      simp [lVecBuild, List.length_eq_zero]
      rintro rfl
      simp
  | succ i ih =>
      intro v
      constructor
      · intro hv
        rw [lVecBuild, lVecStep, List.mem_flatMap] at hv
        obtain ⟨w, hw, hv⟩ := hv
        rw [List.mem_map] at hv
        obtain ⟨x, hx, rfl⟩ := hv
        obtain ⟨hlen, hnn, hsum⟩ := (ih w).mp hw
        obtain ⟨hx0, hxm, hxle⟩ := mem_lVecStep_filter.mp hx
        refine ⟨by simp [hlen], ?_, ?_⟩
        · intro a ha
          rcases List.mem_append.mp ha with h | h
          · exact hnn a h
          · simp at h; omega
        · rw [List.sum_append]
          simp
          omega
      · rintro ⟨hlen, hnn, hsum⟩
        rcases List.eq_nil_or_concat v with rfl | ⟨w, x, rfl⟩
        · simp at hlen
        · rw [List.concat_eq_append] at *
          have hwlen : w.length = i := by
            have h := hlen
            rw [List.length_append] at h
            simp at h
            omega
          have hxmem : x ∈ w ++ [x] := List.mem_append.mpr (Or.inr (by simp))
          have hx0 : 0 ≤ x := hnn x hxmem
          have hwnn : ∀ a ∈ w, 0 ≤ a := fun a ha =>
            hnn a (List.mem_append.mpr (Or.inl ha))
          have hwsum0 : 0 ≤ w.sum := List.sum_nonneg hwnn
          have hsum' : w.sum + x ≤ (m : ℤ) := by
            rw [List.sum_append] at hsum
            simpa using hsum
          rw [lVecBuild, lVecStep, List.mem_flatMap]
          refine ⟨w, (ih w).mpr ⟨hwlen, hwnn, by omega⟩, ?_⟩
          rw [List.mem_map]
          exact ⟨x, mem_lVecStep_filter.mpr ⟨hx0, by omega, by omega⟩, rfl⟩

/-- The accumulator of `_gen_l_vec_list` has no duplicate vectors. -/
theorem nodup_lVecBuild (m : ℕ) : ∀ i : ℕ, (lVecBuild m i).Nodup := by
  intro i
  induction i with
  | zero => simp [lVecBuild]
  | succ i ih =>
      rw [lVecBuild, lVecStep, List.nodup_flatMap]
      constructor
      · intro w _
        apply List.Nodup.map
        · intro x y hxy
          have := List.append_cancel_left hxy
          simpa using this
        · apply List.Nodup.filter
          apply List.Nodup.map
          · intro a b hab
            simpa using hab
          · exact List.nodup_range (m + 1)
      · refine List.Pairwise.imp_of_mem ?_ ih
        intro w₁ w₂ h₁ h₂ hne z hz₁ hz₂
        rw [List.mem_map] at hz₁ hz₂
        obtain ⟨x₁, _, rfl⟩ := hz₁
        obtain ⟨x₂, _, heq⟩ := hz₂
        have hlen : w₂.length = w₁.length := by
          rw [((mem_lVecBuild m i) w₁).mp h₁ |>.1, ((mem_lVecBuild m i) w₂).mp h₂ |>.1]
        exact hne (List.append_inj heq.symm hlen.symm).1

/-- Membership in the reference enumeration `sumVecs`. -/
theorem mem_sumVecs :
    ∀ (i m : ℕ) (v : List ℤ),
      v ∈ sumVecs m i ↔ v.length = i ∧ (∀ x ∈ v, 0 ≤ x) ∧ v.sum ≤ (m : ℤ) := by
  intro i
  induction i with
  | zero =>
      intro m v
      simp [sumVecs, List.length_eq_zero]
      rintro rfl
      simp
  | succ i ih =>
      intro m v
      rw [sumVecs, List.mem_flatMap]
      constructor
      · rintro ⟨x, hx, hv⟩
        rw [List.mem_map] at hv
        obtain ⟨w, hw, rfl⟩ := hv
        rw [List.mem_range] at hx
        obtain ⟨hlen, hnn, hsum⟩ := (ih (m - x) w).mp hw
        refine ⟨by simp [hlen], ?_, ?_⟩
        · intro a ha
          rcases List.mem_cons.mp ha with rfl | h
          · exact Int.natCast_nonneg x
          · exact hnn a h
        · rw [List.sum_cons]
          have hcast : ((m - x : ℕ) : ℤ) = (m : ℤ) - (x : ℤ) := by omega
          omega
      · rintro ⟨hlen, hnn, hsum⟩
        rcases v with _ | ⟨a, w⟩
        · simp at hlen
        · have ha0 : 0 ≤ a := hnn a (List.mem_cons_self a w)
          have hwnn : ∀ x ∈ w, 0 ≤ x := fun x hx => hnn x (List.mem_cons_of_mem a hx)
          have hwsum0 : 0 ≤ w.sum := List.sum_nonneg hwnn
          rw [List.sum_cons] at hsum
          refine ⟨a.toNat, List.mem_range.mpr (by omega), ?_⟩
          rw [List.mem_map]
          refine ⟨w, (ih (m - a.toNat) w).mpr ⟨by simpa using hlen, hwnn, ?_⟩, ?_⟩
          · have hcast : ((m - a.toNat : ℕ) : ℤ) = (m : ℤ) - (a.toNat : ℤ) := by omega
            omega
          · rw [Int.toNat_of_nonneg ha0]

/-- The reference enumeration has no duplicates. -/
theorem nodup_sumVecs : ∀ (i m : ℕ), (sumVecs m i).Nodup := by
  intro i
  induction i with
  | zero => intro m; simp [sumVecs]
  | succ i ih =>
      intro m
      rw [sumVecs, List.nodup_flatMap]
      constructor
      · intro x _
        exact List.Nodup.map (fun a b hab => by simpa using hab) (ih (m - x))
      · refine List.Pairwise.imp_of_mem ?_ (List.nodup_range (m + 1))
        intro x₁ x₂ _ _ hne z hz₁ hz₂
        rw [List.mem_map] at hz₁ hz₂
        obtain ⟨w₁, _, rfl⟩ := hz₁
        obtain ⟨w₂, _, heq⟩ := hz₂
        have hhead : (x₂ : ℤ) = (x₁ : ℤ) := by
          injection heq
        exact hne (by omega)

/-- Sum of a mapped `List.range` as a `Finset.range` sum. -/
theorem sum_map_list_range {M : Type} [AddCommMonoid M] (f : ℕ → M) :
    ∀ k : ℕ, ((List.range k).map f).sum = ∑ x ∈ Finset.range k, f x := by
  intro k
  induction k with
  | zero => simp
  | succ k ih =>
      rw [List.range_succ, List.map_append, List.sum_append, Finset.sum_range_succ, ih]
      simp

/-- Hockey-stick identity specialised to what the counting needs:
`Σ_{s=0}^{m} C(s+i, i) = C(m+i+1, i+1)`. -/
theorem sum_range_choose_hockey (i : ℕ) :
    ∀ m : ℕ, ∑ s ∈ Finset.range (m + 1), (s + i).choose i = (m + i + 1).choose (i + 1) := by
  intro m
  induction m with
  | zero => simp
  | succ m ih =>
      rw [Finset.sum_range_succ, ih]
      have h4 : (m + 1) + i = m + i + 1 := by ring
      rw [h4]
      have hP : (m + i + 1 + 1).choose (i + 1) =
          (m + i + 1).choose i + (m + i + 1).choose (i + 1) :=
        Nat.choose_succ_succ (m + i + 1) i
      rw [hP]
      omega

/-- The reference enumeration has the stars-and-bars cardinality. -/
theorem length_sumVecs : ∀ (i m : ℕ), (sumVecs m i).length = (m + i).choose i := by
  intro i
  induction i with
  | zero => intro m; simp [sumVecs]
  | succ i ih =>
      intro m
      rw [sumVecs, List.length_flatMap]
      have hmap :
          List.map (List.length ∘ fun x => (sumVecs (m - x) i).map fun v => (x : ℤ) :: v)
              (List.range (m + 1)) =
            (List.range (m + 1)).map fun x => ((m - x) + i).choose i := by
        apply List.map_congr_left
        intro a _
        simp [Function.comp, List.length_map, ih]
      rw [hmap, sum_map_list_range]
      have hrefl := Finset.sum_range_reflect (fun s => (s + i).choose i) (m + 1)
      simp only [Nat.add_sub_cancel] at hrefl
      rw [hrefl, sum_range_choose_hockey]
      congr 1

/-- The accumulator after `i` iterations has the same cardinality as the
reference enumeration (same members, both duplicate-free). -/
theorem length_lVecBuild (m i : ℕ) : (lVecBuild m i).length = (m + i).choose i := by
  have h1 : (lVecBuild m i).toFinset = (sumVecs m i).toFinset := by
    ext v
    simp only [List.mem_toFinset]
    rw [mem_lVecBuild m i v, mem_sumVecs i m v]
  calc (lVecBuild m i).length
      = (lVecBuild m i).toFinset.card :=
        (List.toFinset_card_of_nodup (nodup_lVecBuild m i)).symm
    _ = (sumVecs m i).toFinset.card := by rw [h1]
    _ = (sumVecs m i).length := List.toFinset_card_of_nodup (nodup_sumVecs i m)
    _ = (m + i).choose i := length_sumVecs i m

/-- Every generated label vector sums exactly to `m` (the appended last
entry is the remainder `m - sum`). -/
theorem gen_l_vec_list_sum (m n : ℕ) : ∀ v ∈ gen_l_vec_list m n, v.sum = (m : ℤ) := by
  intro v hv
  rw [gen_l_vec_list, List.mem_map] at hv
  obtain ⟨w, _, rfl⟩ := hv
  rw [List.sum_append]
  simp

/-- The generated label-vector list has no duplicates. -/
theorem nodup_gen_l_vec_list (m n : ℕ) : (gen_l_vec_list m n).Nodup := by
  rw [gen_l_vec_list]
  refine List.Nodup.map_on ?_ (nodup_lVecBuild m (n - 1))
  intro w₁ h₁ w₂ h₂ heq
  have hlen : w₁.length = w₂.length := by
    rw [((mem_lVecBuild m (n - 1)) w₁).mp h₁ |>.1, ((mem_lVecBuild m (n - 1)) w₂).mp h₂ |>.1]
  exact (List.append_inj heq hlen).1

/-- The generated label-vector list has the stars-and-bars length. -/
theorem length_gen_l_vec_list (m n : ℕ) (hn : 1 ≤ n) :
    (gen_l_vec_list m n).length = (m + n - 1).choose (n - 1) := by
  rw [gen_l_vec_list, List.length_map, length_lVecBuild]
  congr 1
  omega

/-- C4: for every `m ≥ 0` and `n_classes ≥ 1`, `_gen_l_vec_list` returns
exactly `C(m + n_classes - 1, n_classes - 1)` vectors, each of length
`n_classes`, with all entries nonnegative integers, each summing exactly
to `m`, with no duplicates. -/
theorem gen_l_vec_list_spec (m n : ℕ) (hn : 1 ≤ n) :
    (gen_l_vec_list m n).length = (m + n - 1).choose (n - 1) ∧
    (∀ v ∈ gen_l_vec_list m n, v.length = n ∧ v.sum = (m : ℤ) ∧ ∀ x ∈ v, 0 ≤ x) ∧
    (gen_l_vec_list m n).Nodup := by
  refine ⟨length_gen_l_vec_list m n hn, ?_, nodup_gen_l_vec_list m n⟩
  intro v hv
  have hs := gen_l_vec_list_sum m n v hv
  rw [gen_l_vec_list, List.mem_map] at hv
  obtain ⟨w, hw, rfl⟩ := hv
  obtain ⟨hlen, hnn, hsum⟩ := ((mem_lVecBuild m (n - 1)) w).mp hw
  refine ⟨?_, hs, ?_⟩
  · rw [List.length_append, hlen]
    simp only [List.length_singleton]
    omega
  · intro x hx
    rcases List.mem_append.mp hx with h | h
    · exact hnn x h
    · simp at h
      have := List.sum_nonneg hnn
      omega

/-- C4 witness for `gen_l_vec_list_spec` at `m = 2`, `n_classes = 2`
(the generated list is `[[0,2],[1,1],[2,0]]`, of length `C(3,1) = 3`). -/
theorem gen_l_vec_list_spec_witness :
    1 ≤ 2 ∧
    ((gen_l_vec_list 2 2).length = (2 + 2 - 1).choose (2 - 1) ∧
      (∀ v ∈ gen_l_vec_list 2 2, v.length = 2 ∧ v.sum = (2 : ℤ) ∧ ∀ x ∈ v, 0 ≤ x) ∧
      (gen_l_vec_list 2 2).Nodup) :=
  ⟨by decide, gen_l_vec_list_spec 2 2 (by decide)⟩

/-! ## `_cost_reduction` lemmas (C1) -/

/-- Summing a mapped `flatMap` block by block. -/
theorem sum_map_flatMap {α β M : Type} [AddCommMonoid M]
    (xs : List α) (f : α → List β) (g : β → M) :
    ((xs.flatMap f).map g).sum = (xs.map fun a => ((f a).map g).sum).sum := by
  induction xs with
  | nil => simp
  | cons a xs ih => simp [List.flatMap_cons, List.map_append, List.sum_append, ih]

/-- The bincount grouping of the source: summing the weights of the
stacked labelling vectors whose coordinate sum is `m` equals summing the
weights over the depth-`m` block `gen_l_vec_list m n`, for `m ≤ m_max`. -/
theorem sum_if_lVecAll (W : List ℤ → ℚ) (mMax n m : ℕ) (hm : m ≤ mMax) :
    ((lVecAll mMax n).map fun l => if l.sum = (m : ℤ) then W l else 0).sum =
      ((gen_l_vec_list m n).map W).sum := by
  rw [lVecAll, sum_map_flatMap]
  have hcongr : (List.range (mMax + 1)).map
      (fun a => ((gen_l_vec_list a n).map fun l =>
        if l.sum = (m : ℤ) then W l else 0).sum) =
      (List.range (mMax + 1)).map
        (fun a => if a = m then ((gen_l_vec_list m n).map W).sum else 0) := by
    apply List.map_congr_left
    intro a _
    by_cases hmm : a = m
    · subst hmm
      rw [if_pos rfl]
      congr 1
      apply List.map_congr_left
      intro l hl
      rw [if_pos (gen_l_vec_list_sum a n l hl)]
    · rw [if_neg hmm]
      apply List.sum_eq_zero
      intro x hx
      rw [List.mem_map] at hx
      obtain ⟨l, hl, rfl⟩ := hx
      rw [if_neg]
      intro hc
      have hs := gen_l_vec_list_sum a n l hl
      exact hmm (by omega)
  rw [hcongr, sum_map_list_range, Finset.sum_ite_eq']
  rw [if_pos (Finset.mem_range.mpr (by omega))]

/-- The per-depth expected cost computed by the source equals the
claim's closed-form expected cost, for every depth `m ≤ m_max`. -/
theorem mSumCode_eq_claim (eb : List ℚ → ℚ) (C : List (List ℚ)) (prior : ℚ)
    (mMax n m : ℕ) (k : List ℚ) (hm : m ≤ mMax) :
    mSumCode eb C prior mMax n k m = claimExpectedCost eb C prior n k m := by
  rw [mSumCode, sum_if_lVecAll _ _ _ _ hm, claimExpectedCost]
  have hbody : ((gen_l_vec_list m n).map fun l =>
      (1 / eb (kPrior k prior n)) * multinomial l *
        dotQ (matColumn C (yHat C k l))
          ((List.range n).map fun j =>
            eb (combSum (kPrior k prior n) l (eyeRow n j)))).sum =
      ((gen_l_vec_list m n).map fun l =>
        (1 / eb (kPrior k prior n)) * lWeight eb C n k (kPrior k prior n) l).sum := by
    congr 1
    apply List.map_congr_left
    intro l _
    rw [lWeight, mul_assoc]
  rw [hbody, List.sum_map_mul_left]

/-- `npMaxRow` of a nonempty list extended on the right takes the max. -/
theorem npMaxRow_append_singleton (l : List ℚ) (x : ℚ) (h : l ≠ []) :
    npMaxRow (l ++ [x]) = max (npMaxRow l) x := by
  cases l with
  | nil => cases h rfl
  | cons a as =>
      show (as ++ [x]).foldl max a = max (as.foldl max a) x
      rw [List.foldl_append]
      rfl

/-- The numpy row maximum of the gains row, as the claim's finite
supremum over `{1, …, m_max}`. -/
theorem npMaxRow_range_map_eq_sup' (f : ℕ → ℚ) :
    ∀ mMax : ℕ, ∀ h : 1 ≤ mMax,
      npMaxRow ((List.range mMax).map fun i => f (i + 1)) =
        (Finset.Icc 1 mMax).sup' (Finset.nonempty_Icc.mpr h) f := by
  intro mMax
  induction mMax with
  | zero => intro h; exact absurd h (by omega)
  | succ mm ih =>
      intro h
      rcases Nat.eq_zero_or_pos mm with h0 | hpos
      · subst h0
        rw [show List.range 1 = [0] from by decide]
        simp [npMaxRow, Finset.Icc_self, Finset.sup'_singleton]
      · have hmm : 1 ≤ mm := hpos
        rw [List.range_succ, List.map_append]
        simp only [List.map_cons, List.map_nil]
        rw [npMaxRow_append_singleton _ _ (fun hc => by
          have hlen := congrArg List.length hc
          simp only [List.length_map, List.length_range, List.length_nil] at hlen
          omega)]
        rw [ih hmm]
        have hins : Finset.Icc 1 (mm + 1) = insert (mm + 1) (Finset.Icc 1 mm) :=
          (Nat.Icc_insert_succ_right (by omega)).symm
        simp only [hins]
        rw [Finset.sup'_insert]
        exact sup_comm ((Finset.Icc 1 mm).sup' (Finset.nonempty_Icc.mpr hmm) f) (f (mm + 1))

/-- C1: the utility `_cost_reduction` returns for each candidate equals
the maximum over `m ∈ {1,…,m_max}` of `(expected cost at 0 - expected
cost at m) / m`, where the expected cost at each depth is the claim's
closed-form Dirichlet-multinomial sum over all label vectors summing to
that depth. Parametric in the shared beta function `eb`. -/
theorem cost_reduction_matches_claim (eb : List ℚ → ℚ) (kVecList : List (List ℚ))
    (C : List (List ℚ)) (mMax : ℕ) (prior : ℚ) (hm : 1 ≤ mMax) :
    cost_reduction eb kVecList (some C) mMax prior =
      kVecList.map fun k =>
        claimUtility eb C prior ((kVecList.headD []).length) mMax
          (Finset.nonempty_Icc.mpr hm) k := by
  show kVecList.map
      (fun k => npMaxRow
        (gainsRow eb C prior mMax ((kVecList.headD []).length) k)) = _
  apply List.map_congr_left
  intro k _
  unfold claimUtility
  rw [← npMaxRow_range_map_eq_sup' _ mMax hm]
  congr 1
  rw [gainsRow]
  apply List.map_congr_left
  intro i hi
  rw [List.mem_range] at hi
  rw [mSumCode_eq_claim eb C prior mMax _ 0 k (Nat.zero_le mMax),
    mSumCode_eq_claim eb C prior mMax _ (i + 1) k (by omega)]

/-- C1 witness for `cost_reduction_matches_claim`: one candidate
`k = [1, 1]`, the 0-1 cost matrix, `m_max = 1`, `prior = 1`, and the
constant-one beta function. -/
theorem cost_reduction_matches_claim_witness :
    1 ≤ 1 ∧
    cost_reduction ebOne [[1, 1]] (some [[0, 1], [1, 0]]) 1 1 =
      [[(1 : ℚ), 1]].map fun k =>
        claimUtility ebOne [[0, 1], [1, 0]] 1
          (([[(1 : ℚ), 1]].headD []).length) 1
          (Finset.nonempty_Icc.mpr (by decide)) k :=
  ⟨by decide,
    cost_reduction_matches_claim ebOne [[1, 1]] [[0, 1], [1, 0]] 1 1 (by decide)⟩

end Probal
